import Mathlib

/-!
# get-pod-app-language: the heuristic inference engine

A shallow embedding of `main.go`: the knowledge-base record (`heuristics`), the
matching loops of `findLanguages`, the editing procedure `addToHeuristic`, the
loader `readHeuristics` and the argument dispatch of `main` / `getPodLanguage`.

Modelling conventions.

* A Go string is a sequence of bytes (`GoString`), not necessarily valid UTF-8:
  `==` compares bytes and `strings.Contains` is containment of byte sequences. A
  string literal of the program is the UTF-8 encoding of its text (`utf8`).
* The durable record `heuristics.json` is observed through `os.ReadFile` followed by
  `json.Unmarshal`. `encoding/json` is a library, so the record is represented by
  what those two calls yield: either the read fails, or the read succeeds and
  `Unmarshal` leaves a value in its target and returns an optional error.
* `json.MarshalIndent` writes every byte that is not part of a well-formed UTF-8
  encoding as the replacement character U+FFFD (`jsonCoerce`). A successful
  `os.WriteFile (json.MarshalIndent kb)` therefore replaces the record by one that
  decodes, without error, to `kb` with every string coerced (`jsonRoundTrip`); a
  failed one leaves the record in a state given by the world.
* A run of a procedure is described by the bytes printed on standard output, by the
  way the process ends (normal return, `os.Exit`, panic), by the resulting world and
  by the final value of the local knowledge-base variable.
-/

namespace GetPodAppLanguage

/-! ## Go strings -/

/-- A Go `string`: an arbitrary sequence of bytes. -/
structure GoString where
  bytes : List UInt8
deriving DecidableEq

/-- Concatenation of Go strings (`+`, and the output of consecutive prints). -/
instance : Append GoString := ⟨fun a b => ⟨a.bytes ++ b.bytes⟩⟩

/-- The Go string holding the UTF-8 encoding of a text. -/
def utf8 (s : String) : GoString :=
  ⟨s.data.flatMap String.utf8EncodeChar⟩

/-- The function `utf8.DecodeRune`, reduced to the size it reports: the number of
bytes of the well-formed UTF-8 encoding at the start of the bytes, and 0 when there
is none (Go then returns `RuneError` with size 1). -/
def runeLen : List UInt8 → Nat
  | [] => 0
  | b0 :: rest =>
    if b0 < 0x80 then 1
    else if 0xC2 ≤ b0 ∧ b0 ≤ 0xDF then
      match rest with
      | b1 :: _ => if 0x80 ≤ b1 ∧ b1 ≤ 0xBF then 2 else 0
      | _ => 0
    else if 0xE0 ≤ b0 ∧ b0 ≤ 0xEF then
      match rest with
      | b1 :: b2 :: _ =>
        if (if b0 = 0xE0 then 0xA0 else 0x80) ≤ b1 ∧ b1 ≤ (if b0 = 0xED then 0x9F else 0xBF)
            ∧ 0x80 ≤ b2 ∧ b2 ≤ 0xBF then 3
        else 0
      | _ => 0
    else if 0xF0 ≤ b0 ∧ b0 ≤ 0xF4 then
      match rest with
      | b1 :: b2 :: b3 :: _ =>
        if (if b0 = 0xF0 then 0x90 else 0x80) ≤ b1 ∧ b1 ≤ (if b0 = 0xF4 then 0x8F else 0xBF)
            ∧ 0x80 ≤ b2 ∧ b2 ≤ 0xBF ∧ 0x80 ≤ b3 ∧ b3 ≤ 0xBF then 4
        else 0
      | _ => 0
    else 0

/-- The string loop of the JSON encoder followed by decoding: bytes of a well-formed
encoding are kept (`pending` counts those still to copy), every other byte becomes
the three bytes of U+FFFD. -/
def coerceBytes : Nat → List UInt8 → List UInt8
  | _, [] => []
  | pending + 1, b :: rest => b :: coerceBytes pending rest
  | 0, b :: rest =>
    match runeLen (b :: rest) with
    | 0 => 0xEF :: 0xBF :: 0xBD :: coerceBytes 0 rest
    | n + 1 => b :: coerceBytes n rest

/-- What a Go string becomes when `encoding/json` writes it and reads it back. -/
def jsonCoerce (s : GoString) : GoString :=
  ⟨coerceBytes 0 s.bytes⟩

/-! ## Data model -/

/-- The struct `heuristics` of `main.go`: a language and its command patterns. -/
structure heuristics where
  Language : GoString
  Commands : List GoString
deriving DecidableEq

/-- One item of the image history returned by the docker client; only the field
`CreatedBy` is read by the program. -/
structure HistoryResponseItem where
  CreatedBy : GoString
deriving DecidableEq

/-- The docker client, reduced to the one method `findLanguages` calls. -/
structure Client where
  ImageHistory : GoString → Except String (List HistoryResponseItem)

/-- The record `heuristics.json` as the program observes it. -/
inductive File where
  /-- The call `os.ReadFile` returns the error `err`. -/
  | unreadable (err : String)
  /-- The call `os.ReadFile` succeeds; `json.Unmarshal` on the bytes stores `decoded`
  in its target and returns `err`. -/
  | content (decoded : List heuristics) (err : Option String)
deriving DecidableEq

/-- The part of the outside world the knowledge-base code touches. -/
structure World where
  /-- The record `heuristics.json`. -/
  file : File
  /-- When `os.WriteFile` on the record fails: the error it returns and the state in
  which it leaves the record (a failed write may already have truncated the file);
  `none` when the write succeeds. -/
  writeFailure : Option (String × File)
deriving DecidableEq

/-- How a run ends. -/
inductive Status where
  /-- The procedure returns to its caller (the process goes on to exit with 0). -/
  | returned
  /-- The call `os.Exit code`. -/
  | exited (code : Nat)
  /-- The call `panic err` (from `exitOnError`, or a runtime error). -/
  | panicked (err : String)
deriving DecidableEq

/-- The observable trace of one run of a procedure. -/
structure Run where
  /-- Bytes printed on standard output. -/
  stdout : GoString
  /-- How the run ended. -/
  status : Status
  /-- The world after the run. -/
  world : World
  /-- The knowledge base handed to `json.MarshalIndent` and `os.WriteFile`, when
  `os.WriteFile` was called. -/
  wrote : Option (List heuristics)
  /-- The final value of the local variable `heuristics`, when it was loaded. -/
  heuristics : Option (List heuristics)
deriving DecidableEq

/-! ## Library functions -/

/-- The function `strings.Contains s substr`: the bytes of `substr` occur within the
bytes of `s`. -/
def Contains (s substr : GoString) : Bool :=
  s.bytes.tails.any (fun t => substr.bytes.isPrefixOf t)

/-- The function `strings.Join`. -/
def Join (xs : List GoString) (sep : GoString) : GoString :=
  ⟨List.intercalate sep.bytes (xs.map (·.bytes))⟩

/-- The verb `%v` of `fmt` applied to a `[]string`. -/
def fmtSlice (xs : List GoString) : GoString :=
  utf8 "[" ++ Join xs (utf8 " ") ++ utf8 "]"

/-- The knowledge base that a record written by `json.MarshalIndent` decodes to. -/
def jsonRoundTrip (kb : List heuristics) : List heuristics :=
  kb.map (fun entry =>
    { Language := jsonCoerce entry.Language, Commands := entry.Commands.map jsonCoerce })

/-! ## `findLanguages` -/

/-- The membership loop of `findLanguages` (lines 179-185): scan `languages` and
stop at the first element equal to `language`. -/
def languageExists (language : GoString) : List GoString → Bool
  | [] => false
  | existingLanguage :: rest =>
    if existingLanguage = language then true else languageExists language rest

/-- The three nested loops of `findLanguages` (lines 172-193), started with
`languages` empty. -/
def findLanguagesLoop (historyList : List HistoryResponseItem)
    (heuristics : List heuristics) : List GoString :=
  historyList.foldl (fun languages historyListItem =>
    let buildCommand := historyListItem.CreatedBy
    heuristics.foldl (fun languages languageHeuristics =>
      let language := languageHeuristics.Language
      languageHeuristics.Commands.foldl (fun languages heuristic =>
        if Contains buildCommand heuristic then
          if !languageExists language languages then languages ++ [language]
          else languages
        else languages) languages) languages) []

/-- The procedure `findLanguages`: read the record (panic when unreadable), decode
it discarding the error of `json.Unmarshal`, fetch the image history (panic on
error), then run the matching loops. -/
def findLanguages (w : World) (imageTag : GoString) (cli : Client) :
    Except String (List GoString) :=
  match w.file with
  | .unreadable err => .error err
  | .content heuristics _ =>
    match cli.ImageHistory imageTag with
    | .error err => .error err
    | .ok historyList => .ok (findLanguagesLoop historyList heuristics)

/-! ## `readHeuristics`, `printUsageString`, `listHeuristics` -/

/-- The procedure `readHeuristics`: read and decode the record, panicking on either
error. -/
def readHeuristics (w : World) : Except String (List heuristics) :=
  match w.file with
  | .unreadable err => .error err
  | .content _ (some err) => .error err
  | .content heuristics none => .ok heuristics

/-- The three usage lines shared by most messages of `printUsageString`. -/
def usageLines : String :=
  "usage: kubectl get-pod-app-language\nusage: kubectl get-pod-app-language add-to-heuristic <language> <command>\nusage: kubectl get-pod-app-language list-heuristics\n"

/-- The text `printUsageString` prints for a code (nothing for an unknown code); the
codes are literals of the program. -/
def usageText (code : String) : String :=
  if code = "usage" then
    "get-pod-app-language huesses which language the application running inside a pod was written in.\n" ++ usageLines
  else if code = "no-command" then
    "No command supplied - please use get-pod-app-language as your command.\n" ++ usageLines
  else if code = "wrong-command" then
    "Wrong command supplied - please use get-pod-app-language as your command.\n" ++ usageLines
  else if code = "subcommand-issue" then
    "No subcommand or wrong subcommand supplied - please supply a pod name for get-pod-langugae or use a subcommand.\n" ++ usageLines
  else if code = "no-pod-name" then
    "No pod name supplied - please supply a pod name.\nusage: kubectl get-pod-app-language\n"
  else if code = "add-to-heuristic-wrong-usage" then
    "No heuristic or langauge provided - please supply both.\nusage: kubectl get-pod-app-language add-to-heuristic <language> <command>\n"
  else ""

/-- The procedure `printUsageString`: print the message, then `os.Exit(1)`. -/
def printUsageString (code : String) (w : World) : Run :=
  { stdout := utf8 (usageText code), status := .exited 1, world := w, wrote := none,
    heuristics := none }

/-- The procedure `listHeuristics`: one line per language, then its commands joined
by commas. -/
def listHeuristics (w : World) : Run :=
  match readHeuristics w with
  | .error err =>
    { stdout := utf8 "", status := .panicked err, world := w, wrote := none,
      heuristics := none }
  | .ok heuristics =>
    { stdout := heuristics.foldl (fun out heuristic =>
        out ++ heuristic.Language ++ utf8 "\n\t" ++ Join heuristic.Commands (utf8 ",")
          ++ utf8 "\n") (utf8 "")
      status := .returned, world := w, wrote := none, heuristics := some heuristics }

/-! ## `addToHeuristic` -/

/-- The variables the loop of `addToHeuristic` updates. -/
structure EditVars where
  heuristics : List heuristics
  languages : List GoString
  isKnownLanguage : Bool
  commandExists : Bool
deriving DecidableEq

/-- The inner loop of `addToHeuristic` (lines 215-219): set `commandExists` when an
existing command equals `command`. -/
def commandLoop (command : GoString) (commands : List GoString) (commandExists : Bool) :
    Bool :=
  commands.foldl (fun commandExists existingCommand =>
    if existingCommand = command then true else commandExists) commandExists

/-- One iteration, at index `i`, of the loop of `addToHeuristic` (lines 213-222). -/
def editStep (language command : GoString) (v : EditVars) (i : Nat) : EditVars :=
  match v.heuristics[i]? with
  | none => v
  | some entry =>
    let v := { v with languages := v.languages ++ [entry.Language] }
    if entry.Language = language then
      { v with
        commandExists := commandLoop command entry.Commands v.commandExists
        heuristics := v.heuristics.set i { entry with Commands := entry.Commands ++ [command] }
        isKnownLanguage := true }
    else v

/-- The loop `for i := 0; i < len(heuristics); i++` of `addToHeuristic`. -/
def editLoop (language command : GoString) (heuristics : List heuristics) : EditVars :=
  (List.range heuristics.length).foldl (editStep language command)
    { heuristics := heuristics, languages := [], isKnownLanguage := false,
      commandExists := false }

/-- The procedure `addToHeuristic`, run on the argument vector `args` (`os.Args`, raw
bytes of the command line). With exactly four arguments `os.Args[4]` is out of range
and the run panics. On the write path the record receives what `json.MarshalIndent`
encodes, so a later load yields `jsonRoundTrip` of the value in memory. -/
def addToHeuristic (args : List GoString) (w : World) : Run :=
  if args.length < 4 then printUsageString "add-to-heuristic-wrong-usage" w
  else
    match args[3]?, args[4]? with
    | some language, some command =>
      match readHeuristics w with
      | .error err =>
        { stdout := utf8 "", status := .panicked err, world := w, wrote := none,
          heuristics := none }
      | .ok heuristics =>
        let v := editLoop language command heuristics
        if !v.isKnownLanguage then
          { stdout := language
              ++ utf8 " is not a known language, please select one of the existing languages: "
              ++ fmtSlice v.languages ++ utf8 "\n"
            status := .exited 1, world := w, wrote := none, heuristics := some v.heuristics }
        else if v.commandExists then
          { stdout := command ++ utf8 " exists as a command already, skipping.\n"
            status := .returned, world := w, wrote := none, heuristics := some v.heuristics }
        else
          match w.writeFailure with
          | some (err, left) =>
            { stdout := utf8 "", status := .panicked err, world := { w with file := left },
              wrote := some v.heuristics, heuristics := some v.heuristics }
          | none =>
            { stdout := utf8 "Appended " ++ command ++ utf8 " to " ++ language
                ++ utf8 "\x27s list of command heuristics\n"
              status := .returned
              world := { w with file := .content (jsonRoundTrip v.heuristics) none }
              wrote := some v.heuristics, heuristics := some v.heuristics }
    | _, _ =>
      { stdout := utf8 ""
        status := .panicked "runtime error: index out of range [4] with length 4"
        world := w, wrote := none, heuristics := none }

/-! ## Argument dispatch -/

/-- The procedure a run of `main` ends up in. -/
inductive Call where
  /-- The call `printUsageString(code)`. -/
  | printUsageString (code : String)
  /-- The call `addToHeuristic(os.Args)`. -/
  | addToHeuristic (args : List GoString)
  /-- The call `listHeuristics()`. -/
  | listHeuristics
  /-- The cluster and image lookup of `getPodLanguage` (lines 62-152). -/
  | podLookup
deriving DecidableEq

/-- The dispatch of `getPodLanguage` on `os.Args`. -/
def getPodLanguage (osArgs : List GoString) : Call :=
  if osArgs.length > 3 && osArgs[2]? == some (utf8 "add-to-heuristic") then
    .addToHeuristic osArgs
  else if osArgs.length > 3 && osArgs[2]? == some (utf8 "list-heuristics") then
    .listHeuristics
  else .podLookup

/-- The dispatch of `main` on `os.Args`. -/
def main (osArgs : List GoString) : Call :=
  if osArgs.length < 2 then .printUsageString "no-command"
  else if osArgs.length == 2 then
    if osArgs[1]? == some (utf8 "get-pod-app-language") then getPodLanguage osArgs
    else .printUsageString "wrong-command"
  else
    if osArgs[2]? == some (utf8 "help") || osArgs[1]? == some (utf8 "--help")
        || osArgs[1]? == some (utf8 "-h") then
      .printUsageString "usage"
    else .printUsageString "subcommand-issue"

/-! ## Reference notions of the specification -/

/-- Case-sensitive substring containment, as a proposition on the bytes. -/
def IsSubstring (pattern text : GoString) : Prop :=
  pattern.bytes <:+: text.bytes

instance (pattern text : GoString) : Decidable (IsSubstring pattern text) := by
  unfold IsSubstring; infer_instance

/-- An entry matches a command text when at least one of its patterns is a
substring of the text. -/
def entryMatches (text : GoString) (entry : heuristics) : Prop :=
  ∃ pattern ∈ entry.Commands, IsSubstring pattern text

instance (text : GoString) (entry : heuristics) : Decidable (entryMatches text entry) := by
  unfold entryMatches; infer_instance

/-- A language matches a command text when some entry with that language does. -/
def languageMatches (kb : List heuristics) (language text : GoString) : Prop :=
  ∃ entry ∈ kb, entry.Language = language ∧ entryMatches text entry

instance (kb : List heuristics) (language text : GoString) :
    Decidable (languageMatches kb language text) := by
  unfold languageMatches; infer_instance

/-- The languages emitted for one history entry: the languages of the matching
entries, in knowledge-base order. -/
def emittedFor (kb : List heuristics) (item : HistoryResponseItem) : List GoString :=
  (kb.filter (fun entry => decide (entryMatches item.CreatedBy entry))).map (·.Language)

/-- The languages emitted over a whole history, history entries in given order. -/
def emitted (history : List HistoryResponseItem) (kb : List heuristics) : List GoString :=
  history.flatMap (emittedFor kb)

/-- Keep only the first occurrence of each element. -/
def firstOccurrences : List GoString → List GoString
  | [] => []
  | x :: xs => x :: (firstOccurrences xs).filter (fun y => decide (y ≠ x))

/-- The reference definition of inference: emit, then keep first occurrences. -/
def inferRef (history : List HistoryResponseItem) (kb : List heuristics) : List GoString :=
  firstOccurrences (emitted history kb)

/-- Index of the earliest history entry whose command text contains some pattern of
`language` (the length of the history when there is none). -/
def earliestMatch (kb : List heuristics) (history : List HistoryResponseItem)
    (language : GoString) : Nat :=
  history.findIdx (fun item => decide (languageMatches kb language item.CreatedBy))

/-- Index of the first knowledge-base entry with `language` that matches `text` (the
length of the knowledge base when there is none). -/
def firstEntry (kb : List heuristics) (text language : GoString) : Nat :=
  kb.findIdx (fun entry => decide (entry.Language = language ∧ entryMatches text entry))

/-- The knowledge-base invariant: languages are pairwise distinct. -/
def UniqueLanguages (kb : List heuristics) : Prop :=
  (kb.map (·.Language)).Nodup

/-- The knowledge-base invariant: no entry lists a pattern twice. -/
def UniquePatterns (kb : List heuristics) : Prop :=
  ∀ entry ∈ kb, entry.Commands.Nodup

/-- A Go string is valid UTF-8 when `encoding/json` stores it unchanged: no byte of
it is replaced by U+FFFD. -/
def ValidUTF8 (s : GoString) : Prop :=
  jsonCoerce s = s

instance (s : GoString) : Decidable (ValidUTF8 s) := by
  unfold ValidUTF8; infer_instance

/-- Every string of the knowledge base is valid UTF-8, as is the case of whatever
`json.Unmarshal` decodes. -/
def ValidKB (kb : List heuristics) : Prop :=
  ∀ entry ∈ kb, ValidUTF8 entry.Language ∧ ∀ pattern ∈ entry.Commands, ValidUTF8 pattern

instance (kb : List heuristics) : Decidable (ValidKB kb) := by
  unfold ValidKB; infer_instance

/-- The knowledge base `kb` with `command` appended to every entry of `language`. -/
def appendCommand (language command : GoString) (kb : List heuristics) : List heuristics :=
  kb.map (fun entry =>
    if entry.Language = language then { entry with Commands := entry.Commands ++ [command] }
    else entry)

/-- Record `language` unless it is already in `languages`. -/
def record (languages : List GoString) (language : GoString) : List GoString :=
  if language ∈ languages then languages else languages ++ [language]

/-- The loop variables of `addToHeuristic` once the entries `done` have been visited
and the entries `todo` remain. -/
def editVarsAt (language command : GoString) (done todo : List heuristics) : EditVars :=
  { heuristics := appendCommand language command done ++ todo
    languages := done.map (·.Language)
    isKnownLanguage := decide (∃ entry ∈ done, entry.Language = language)
    commandExists :=
      decide (∃ entry ∈ done, entry.Language = language ∧ command ∈ entry.Commands) }

instance (kb : List heuristics) : Decidable (UniqueLanguages kb) := by
  unfold UniqueLanguages; infer_instance

instance (kb : List heuristics) : Decidable (UniquePatterns kb) := by
  unfold UniquePatterns; infer_instance

/-! ## Scenario data -/

/-- A knowledge-base entry given by the text of its language and patterns. -/
def entryOf (language : String) (commands : List String) : heuristics :=
  { Language := utf8 language, Commands := commands.map utf8 }

/-- A history item given by the text of its command. -/
def createdBy (command : String) : HistoryResponseItem :=
  { CreatedBy := utf8 command }

/-- The knowledge base of the scenarios of the specification. -/
def scenarioKB : List heuristics :=
  [entryOf "go" ["go build", "go mod"], entryOf "python" ["pip install"]]

/-- A world whose record holds `scenarioKB` and can be written. -/
def scenarioWorld : World :=
  { file := .content scenarioKB none, writeFailure := none }

/-- The documented argument vector of `add-to-heuristic`. -/
def editArgs (language command : GoString) : List GoString :=
  [utf8 "kubectl", utf8 "get-pod-app-language", utf8 "add-to-heuristic", language, command]

/-- The bytes `67 6f 20 ff`: the text "go " followed by a byte that belongs to no UTF-8
encoding. -/
def rawCommand : GoString :=
  utf8 "go " ++ ⟨[0xFF]⟩

/-- The bytes `67 6f 20 ef bf bd`: the text "go " followed by U+FFFD, which is what
`encoding/json` stores for `rawCommand`. -/
def storedCommand : GoString :=
  utf8 "go " ++ ⟨[0xEF, 0xBF, 0xBD]⟩

/-- A knowledge base holding `storedCommand` under go. -/
def storedKB : List heuristics :=
  [{ Language := utf8 "go", Commands := [storedCommand] }]

/-! ## Facts about the library model -/

theorem contains_iff (s substr : GoString) : Contains s substr = true ↔ IsSubstring substr s := by
  unfold Contains IsSubstring
  rw [List.any_eq_true, List.infix_iff_prefix_suffix]
  constructor
  · rintro ⟨t, ht, hp⟩
    exact ⟨t, List.isPrefixOf_iff_prefix.mp hp, (List.mem_tails _ _).mp ht⟩
  · rintro ⟨t, hp, ht⟩
    exact ⟨t, (List.mem_tails _ _).mpr ht, List.isPrefixOf_iff_prefix.mpr hp⟩

/-! ## The loops of `findLanguages` -/

theorem languageExists_iff (language : GoString) (languages : List GoString) :
    languageExists language languages = true ↔ language ∈ languages := by
  induction languages with
  | nil => simp [languageExists]
  | cons x xs ih =>
    unfold languageExists
    by_cases h : x = language
    · simp [h]
    · simp [h, ih, Ne.symm h]

theorem record_idem (languages : List GoString) (language : GoString) :
    record (record languages language) language = record languages language := by
  unfold record
  by_cases h : language ∈ languages <;> simp [h]

theorem commands_fold (text language : GoString) (commands : List GoString)
    (languages : List GoString) :
    commands.foldl (fun languages heuristic =>
        if Contains text heuristic then
          if !languageExists language languages then languages ++ [language]
          else languages
        else languages) languages
      = if (∃ pattern ∈ commands, IsSubstring pattern text) then record languages language
        else languages := by
  induction commands generalizing languages with
  | nil => simp
  | cons p ps ih =>
    rw [List.foldl_cons, ih]
    have hrec : (if !languageExists language languages then languages ++ [language]
        else languages) = record languages language := by
      unfold record
      by_cases h : language ∈ languages
      · simp [h, (languageExists_iff language languages).mpr h]
      · have : languageExists language languages = false := by
          cases hc : languageExists language languages
          · rfl
          · exact absurd ((languageExists_iff _ _).mp hc) h
        simp [h, this]
    rw [hrec]
    by_cases hp : Contains text p = true
    · have hs := (contains_iff _ _).mp hp
      have h1 : ∃ pattern ∈ p :: ps, IsSubstring pattern text := ⟨p, by simp, hs⟩
      rw [if_pos hp, if_pos h1, record_idem]
      split_ifs <;> rfl
    · have hs : ¬ IsSubstring p text := fun h => hp ((contains_iff _ _).mpr h)
      rw [if_neg hp]
      by_cases h2 : ∃ pattern ∈ ps, IsSubstring pattern text
      · have h1 : ∃ pattern ∈ p :: ps, IsSubstring pattern text := by
          obtain ⟨q, hq, hqs⟩ := h2
          exact ⟨q, List.mem_cons_of_mem _ hq, hqs⟩
        rw [if_pos h2, if_pos h1]
      · have h1 : ¬ ∃ pattern ∈ p :: ps, IsSubstring pattern text := by
          rintro ⟨q, hq, hqs⟩
          rcases List.mem_cons.mp hq with rfl | hq
          · exact hs hqs
          · exact h2 ⟨q, hq, hqs⟩
        rw [if_neg h2, if_neg h1]

theorem entries_fold (item : HistoryResponseItem) (kb : List heuristics)
    (languages : List GoString) :
    kb.foldl (fun languages languageHeuristics =>
        languageHeuristics.Commands.foldl (fun languages heuristic =>
          if Contains item.CreatedBy heuristic then
            if !languageExists languageHeuristics.Language languages then
              languages ++ [languageHeuristics.Language]
            else languages
          else languages) languages) languages
      = (emittedFor kb item).foldl record languages := by
  induction kb generalizing languages with
  | nil => simp [emittedFor]
  | cons e es ih =>
    rw [List.foldl_cons, ih, commands_fold]
    unfold emittedFor
    by_cases h : entryMatches item.CreatedBy e
    · have h' : ∃ pattern ∈ e.Commands, IsSubstring pattern item.CreatedBy := h
      rw [if_pos h', List.filter_cons_of_pos (by simpa using h)]
      simp
    · have h' : ¬ ∃ pattern ∈ e.Commands, IsSubstring pattern item.CreatedBy := h
      rw [if_neg h', List.filter_cons_of_neg (by simpa using h)]

theorem history_fold (history : List HistoryResponseItem) (kb : List heuristics)
    (languages : List GoString) :
    history.foldl (fun languages item => (emittedFor kb item).foldl record languages) languages
      = (emitted history kb).foldl record languages := by
  induction history generalizing languages with
  | nil => simp [emitted]
  | cons c cs ih =>
    rw [List.foldl_cons, ih]
    simp [emitted, List.foldl_append]

theorem findLanguagesLoop_eq_fold (history : List HistoryResponseItem) (kb : List heuristics) :
    findLanguagesLoop history kb = (emitted history kb).foldl record [] := by
  unfold findLanguagesLoop
  rw [← history_fold]
  congr 1
  funext languages item
  exact entries_fold item kb languages

/-! ## Keeping first occurrences -/

theorem mem_firstOccurrences (x : GoString) (l : List GoString) :
    x ∈ firstOccurrences l ↔ x ∈ l := by
  induction l with
  | nil => simp [firstOccurrences]
  | cons y ys ih =>
    simp only [firstOccurrences, List.mem_cons, List.mem_filter, ih, decide_eq_true_eq]
    by_cases h : x = y <;> simp [h]

theorem nodup_firstOccurrences (l : List GoString) : (firstOccurrences l).Nodup := by
  induction l with
  | nil => simp [firstOccurrences]
  | cons y ys ih =>
    simp only [firstOccurrences, List.nodup_cons]
    exact ⟨by simp [List.mem_filter], ih.filter _⟩

theorem fold_record (l acc : List GoString) :
    l.foldl record acc
      = acc ++ (firstOccurrences l).filter (fun y => decide (y ∉ acc)) := by
  induction l generalizing acc with
  | nil => simp [firstOccurrences]
  | cons x xs ih =>
    rw [List.foldl_cons, ih]
    unfold record
    by_cases h : x ∈ acc
    · rw [if_pos h]
      simp only [firstOccurrences]
      rw [List.filter_cons_of_neg (by simpa using h), List.filter_filter]
      congr 1
      apply List.filter_congr
      intro y _
      by_cases hy : y ∈ acc
      · simp [hy]
      · have : y ≠ x := fun e => hy (e ▸ h)
        simp [hy, this]
    · rw [if_neg h]
      simp only [firstOccurrences]
      rw [List.filter_cons_of_pos (by simpa using h), List.filter_filter, List.append_assoc]
      congr 1
      simp only [List.singleton_append, List.cons.injEq, true_and]
      apply List.filter_congr
      intro y _
      by_cases hy : y ∈ acc <;> by_cases hx : y = x <;> simp [hy, hx]

theorem findLanguagesLoop_eq_inferRef (history : List HistoryResponseItem)
    (kb : List heuristics) : findLanguagesLoop history kb = inferRef history kb := by
  rw [findLanguagesLoop_eq_fold, fold_record]
  simp [inferRef]

/-- When the record can be read and the image history is available, `findLanguages`
returns what its loops compute on the decoded knowledge base, whatever error
`json.Unmarshal` reported. -/
theorem findLanguages_returns (w : World) (imageTag : GoString) (cli : Client)
    (kb : List heuristics) (err : Option String) (history : List HistoryResponseItem)
    (hfile : w.file = .content kb err) (hhist : cli.ImageHistory imageTag = .ok history) :
    findLanguages w imageTag cli = .ok (findLanguagesLoop history kb) := by
  unfold findLanguages
  rw [hfile]
  simp only [hhist]

/-! ## Order of first occurrences -/

theorem indexOf_filter_lt (p : GoString → Bool) (a b : GoString) (l : List GoString)
    (ha : p a = true) (h : List.indexOf a l < List.indexOf b l) :
    List.indexOf a (l.filter p) < List.indexOf b (l.filter p) := by
  induction l with
  | nil => simp at h
  | cons y ys ih =>
    by_cases hya : y = a
    · subst hya
      have hb : y ≠ b := by
        intro e
        subst e
        exact lt_irrefl _ h
      rw [List.filter_cons_of_pos ha, List.indexOf_cons_eq _ rfl, List.indexOf_cons_ne _ hb]
      exact Nat.succ_pos _
    · by_cases hyb : y = b
      · rw [List.indexOf_cons_eq _ hyb] at h
        exact absurd h (Nat.not_lt_zero _)
      · rw [List.indexOf_cons_ne _ hya, List.indexOf_cons_ne _ hyb] at h
        have h' := ih (Nat.lt_of_succ_lt_succ h)
        by_cases hp : p y = true
        · rw [List.filter_cons_of_pos hp, List.indexOf_cons_ne _ hya, List.indexOf_cons_ne _ hyb]
          exact Nat.succ_lt_succ h'
        · rw [List.filter_cons_of_neg hp]
          exact h'

theorem indexOf_firstOccurrences_lt (a b : GoString) (l : List GoString)
    (h : List.indexOf a l < List.indexOf b l) :
    List.indexOf a (firstOccurrences l) < List.indexOf b (firstOccurrences l) := by
  induction l with
  | nil => simp at h
  | cons y ys ih =>
    simp only [firstOccurrences]
    by_cases hya : y = a
    · subst hya
      have hb : y ≠ b := by
        intro e
        subst e
        exact lt_irrefl _ h
      rw [List.indexOf_cons_eq _ rfl, List.indexOf_cons_ne _ hb]
      exact Nat.succ_pos _
    · by_cases hyb : y = b
      · rw [List.indexOf_cons_eq _ hyb] at h
        exact absurd h (Nat.not_lt_zero _)
      · rw [List.indexOf_cons_ne _ hya, List.indexOf_cons_ne _ hyb] at h
        rw [List.indexOf_cons_ne _ hya, List.indexOf_cons_ne _ hyb]
        apply Nat.succ_lt_succ
        apply indexOf_filter_lt
        · simpa using Ne.symm hya
        · exact ih (Nat.lt_of_succ_lt_succ h)

theorem mem_emittedFor (kb : List heuristics) (item : HistoryResponseItem) (language : GoString) :
    language ∈ emittedFor kb item ↔ languageMatches kb language item.CreatedBy := by
  unfold emittedFor languageMatches
  simp only [List.mem_map, List.mem_filter, decide_eq_true_eq]
  constructor
  · rintro ⟨e, ⟨he, hm⟩, hl⟩
    exact ⟨e, he, hl, hm⟩
  · rintro ⟨e, he, hl, hm⟩
    exact ⟨e, ⟨he, hm⟩, hl⟩

theorem mem_emitted (history : List HistoryResponseItem) (kb : List heuristics)
    (language : GoString) :
    language ∈ emitted history kb
      ↔ ∃ item ∈ history, languageMatches kb language item.CreatedBy := by
  unfold emitted
  simp only [List.mem_flatMap, mem_emittedFor]

theorem indexOf_emitted_lt (kb : List heuristics) (history : List HistoryResponseItem)
    (a b : GoString) (h : earliestMatch kb history a < earliestMatch kb history b) :
    List.indexOf a (emitted history kb) < List.indexOf b (emitted history kb) := by
  induction history with
  | nil => simp [earliestMatch] at h
  | cons c cs ih =>
    unfold earliestMatch at h ih
    rw [List.findIdx_cons, List.findIdx_cons] at h
    have hcons : emitted (c :: cs) kb = emittedFor kb c ++ emitted cs kb := by
      simp [emitted]
    rw [hcons]
    by_cases hb : languageMatches kb b c.CreatedBy
    · simp [hb] at h
    · have hb' : b ∉ emittedFor kb c := fun hm => hb ((mem_emittedFor _ _ _).mp hm)
      rw [List.indexOf_append_of_not_mem hb']
      by_cases ha : languageMatches kb a c.CreatedBy
      · have ha' : a ∈ emittedFor kb c := (mem_emittedFor _ _ _).mpr ha
        rw [List.indexOf_append_of_mem ha']
        exact Nat.lt_of_lt_of_le (List.indexOf_lt_length.mpr ha') (Nat.le_add_right _ _)
      · have ha' : a ∉ emittedFor kb c := fun hm => ha ((mem_emittedFor _ _ _).mp hm)
        rw [List.indexOf_append_of_not_mem ha']
        simp [ha, hb] at h
        exact Nat.add_lt_add_left (ih h) _

theorem indexOf_emittedFor_lt (kb : List heuristics) (item : HistoryResponseItem)
    (a b : GoString)
    (h : firstEntry kb item.CreatedBy a < firstEntry kb item.CreatedBy b) :
    List.indexOf a (emittedFor kb item) < List.indexOf b (emittedFor kb item) := by
  induction kb with
  | nil => simp [firstEntry] at h
  | cons e es ih =>
    unfold firstEntry at h ih
    rw [List.findIdx_cons, List.findIdx_cons] at h
    unfold emittedFor at ih ⊢
    by_cases hm : entryMatches item.CreatedBy e
    · rw [List.filter_cons_of_pos (by simpa using hm), List.map_cons]
      by_cases hb : e.Language = b
      · simp [hb, hm] at h
      · by_cases ha : e.Language = a
        · rw [List.indexOf_cons_eq _ ha, List.indexOf_cons_ne _ hb]
          exact Nat.succ_pos _
        · rw [List.indexOf_cons_ne _ ha, List.indexOf_cons_ne _ hb]
          simp [ha, hb] at h
          exact Nat.succ_lt_succ (ih (by simpa using h))
    · rw [List.filter_cons_of_neg (by simpa using hm)]
      simp [hm] at h
      exact ih (by simpa using h)

theorem indexOf_emitted_same (kb : List heuristics) (history : List HistoryResponseItem)
    (a b : GoString) (i : Nat) (hi : i < history.length)
    (ha : earliestMatch kb history a = i) (hb : earliestMatch kb history b = i)
    (h : firstEntry kb history[i].CreatedBy a < firstEntry kb history[i].CreatedBy b) :
    List.indexOf a (emitted history kb) < List.indexOf b (emitted history kb) := by
  induction history generalizing i with
  | nil => simp at hi
  | cons c cs ih =>
    unfold earliestMatch at ha hb ih
    rw [List.findIdx_cons] at ha hb
    have hcons : emitted (c :: cs) kb = emittedFor kb c ++ emitted cs kb := by
      simp [emitted]
    rw [hcons]
    by_cases hma : languageMatches kb a c.CreatedBy
    · have hi0 : i = 0 := by simpa [hma] using ha.symm
      subst hi0
      have ha' : a ∈ emittedFor kb c := (mem_emittedFor _ _ _).mpr hma
      have hmb : languageMatches kb b c.CreatedBy := by
        by_contra hn
        simp [hn] at hb
      have hb' : b ∈ emittedFor kb c := (mem_emittedFor _ _ _).mpr hmb
      rw [List.indexOf_append_of_mem ha', List.indexOf_append_of_mem hb']
      exact indexOf_emittedFor_lt kb c a b h
    · have ha' : a ∉ emittedFor kb c := fun hm => hma ((mem_emittedFor _ _ _).mp hm)
      simp only [hma, decide_False, cond_false] at ha
      have hmb : ¬ languageMatches kb b c.CreatedBy := by
        intro hn
        simp [hn] at hb
        omega
      have hb' : b ∉ emittedFor kb c := fun hm => hmb ((mem_emittedFor _ _ _).mp hm)
      simp only [hmb, decide_False, cond_false] at hb
      rw [List.indexOf_append_of_not_mem ha', List.indexOf_append_of_not_mem hb']
      obtain ⟨j, rfl⟩ : ∃ j, i = j + 1 := ⟨_, ha.symm⟩
      have hj : j < cs.length := by simpa using hi
      have := ih j hj (by omega) (by omega) (by simpa using h)
      exact Nat.add_lt_add_left this _

/-! ## Claims about `findLanguages` -/

/-- Claim C1 (first-discovery ordering): for two languages of the result, when the
earliest history entry containing a pattern of `A` comes strictly before the earliest
history entry containing a pattern of `B`, `A` occurs before `B` in the list the
loops of `findLanguages` return. -/
theorem findLanguages_first_discovery_order (history : List HistoryResponseItem)
    (kb : List heuristics) (A B : GoString)
    (hA : A ∈ findLanguagesLoop history kb) (hB : B ∈ findLanguagesLoop history kb)
    (h : earliestMatch kb history A < earliestMatch kb history B) :
    List.indexOf A (findLanguagesLoop history kb)
      < List.indexOf B (findLanguagesLoop history kb) := by
  have _ := hA
  have _ := hB
  rw [findLanguagesLoop_eq_inferRef]
  exact indexOf_firstOccurrences_lt A B _ (indexOf_emitted_lt kb history A B h)

/-- Witness for C1 on scenario 1 of the specification: python is found in the first
history entry, go in the second, and the result is python then go. -/
theorem findLanguages_first_discovery_order_witness :
    findLanguagesLoop
        [createdBy "RUN pip install -r requirements.txt", createdBy "RUN go build ./..."]
        scenarioKB = [utf8 "python", utf8 "go"]
    ∧ List.indexOf (utf8 "python")
        (findLanguagesLoop
          [createdBy "RUN pip install -r requirements.txt", createdBy "RUN go build ./..."]
          scenarioKB)
      < List.indexOf (utf8 "go")
        (findLanguagesLoop
          [createdBy "RUN pip install -r requirements.txt", createdBy "RUN go build ./..."]
          scenarioKB) :=
  ⟨by decide,
   findLanguages_first_discovery_order
     [createdBy "RUN pip install -r requirements.txt", createdBy "RUN go build ./..."]
     scenarioKB (utf8 "python") (utf8 "go")
     (by decide) (by decide) (by decide)⟩

/-- Claim C2 (dedup): the list the loops of `findLanguages` return contains no
language more than once, for every history and every knowledge base. -/
theorem findLanguages_nodup (history : List HistoryResponseItem) (kb : List heuristics) :
    (findLanguagesLoop history kb).Nodup := by
  rw [findLanguagesLoop_eq_inferRef]
  exact nodup_firstOccurrences _

/-- Claim C3 (reference definition): the loops of `findLanguages` return exactly the
emitted languages (history order, then knowledge-base order, an entry emitting its
language when one of its patterns is a substring of the command text) with only first
occurrences kept; a language is in the result exactly when some history entry
contains some pattern of an entry with that language; and two languages first
discovered in the same history entry appear in knowledge-base-entry order. -/
theorem findLanguages_eq_reference (history : List HistoryResponseItem)
    (kb : List heuristics) :
    findLanguagesLoop history kb = inferRef history kb
    ∧ (∀ language, language ∈ findLanguagesLoop history kb ↔
        ∃ item ∈ history, ∃ entry ∈ kb, entry.Language = language ∧
          ∃ pattern ∈ entry.Commands, pattern.bytes <:+: item.CreatedBy.bytes)
    ∧ (∀ (A B : GoString) (i : Nat) (hi : i < history.length),
        earliestMatch kb history A = i → earliestMatch kb history B = i →
        firstEntry kb history[i].CreatedBy A < firstEntry kb history[i].CreatedBy B →
        List.indexOf A (findLanguagesLoop history kb)
          < List.indexOf B (findLanguagesLoop history kb)) := by
  refine ⟨findLanguagesLoop_eq_inferRef history kb, ?_, ?_⟩
  · intro language
    rw [findLanguagesLoop_eq_inferRef, inferRef, mem_firstOccurrences, mem_emitted]
    rfl
  · intro A B i hi hA hB h
    rw [findLanguagesLoop_eq_inferRef]
    exact indexOf_firstOccurrences_lt A B _ (indexOf_emitted_same kb history A B i hi hA hB h)

/-- Witness for C3: one history entry matching both python and go yields go then
python, the order of the knowledge-base entries. -/
theorem findLanguages_eq_reference_witness :
    findLanguagesLoop [createdBy "RUN pip install x && go build"] scenarioKB
        = [utf8 "go", utf8 "python"]
    ∧ List.indexOf (utf8 "go")
        (findLanguagesLoop [createdBy "RUN pip install x && go build"] scenarioKB)
      < List.indexOf (utf8 "python")
        (findLanguagesLoop [createdBy "RUN pip install x && go build"] scenarioKB) :=
  ⟨by decide,
   (findLanguages_eq_reference [createdBy "RUN pip install x && go build"]
     scenarioKB).2.2 (utf8 "go") (utf8 "python") 0
     (by decide) (by decide) (by decide) (by decide)⟩

theorem commandLoop_eq (command : GoString) (commands : List GoString) (commandExists : Bool) :
    commandLoop command commands commandExists
      = (commandExists || decide (command ∈ commands)) := by
  unfold commandLoop
  induction commands generalizing commandExists with
  | nil => simp
  | cons c cs ih =>
    rw [List.foldl_cons, ih]
    by_cases h : c = command
    · simp [h]
    · cases commandExists <;> simp [h, Ne.symm h]

theorem appendCommand_length (language command : GoString) (kb : List heuristics) :
    (appendCommand language command kb).length = kb.length := by
  simp [appendCommand]

theorem appendCommand_append (language command : GoString) (xs ys : List heuristics) :
    appendCommand language command (xs ++ ys)
      = appendCommand language command xs ++ appendCommand language command ys := by
  simp [appendCommand]

theorem known_snoc (language : GoString) (done : List heuristics) (e : heuristics) :
    decide (∃ entry ∈ done ++ [e], entry.Language = language)
      = (decide (∃ entry ∈ done, entry.Language = language) || decide (e.Language = language)) := by
  rw [Bool.eq_iff_iff]
  simp only [Bool.or_eq_true, decide_eq_true_eq, List.mem_append, List.mem_singleton]
  constructor
  · rintro ⟨x, hx | hx, h⟩
    · exact Or.inl ⟨x, hx, h⟩
    · exact Or.inr (hx ▸ h)
  · rintro (⟨x, hx, h⟩ | h)
    · exact ⟨x, Or.inl hx, h⟩
    · exact ⟨e, Or.inr rfl, h⟩

theorem exists_snoc (language command : GoString) (done : List heuristics) (e : heuristics) :
    decide (∃ entry ∈ done ++ [e], entry.Language = language ∧ command ∈ entry.Commands)
      = (decide (∃ entry ∈ done, entry.Language = language ∧ command ∈ entry.Commands)
          || decide (e.Language = language ∧ command ∈ e.Commands)) := by
  rw [Bool.eq_iff_iff]
  simp only [Bool.or_eq_true, decide_eq_true_eq, List.mem_append, List.mem_singleton]
  constructor
  · rintro ⟨x, hx | hx, h⟩
    · exact Or.inl ⟨x, hx, h⟩
    · exact Or.inr (hx ▸ h)
  · rintro (⟨x, hx, h⟩ | h)
    · exact ⟨x, Or.inl hx, h⟩
    · exact ⟨e, Or.inr rfl, h⟩

theorem editStep_at (language command : GoString) (done : List heuristics) (e : heuristics)
    (todo : List heuristics) :
    editStep language command (editVarsAt language command done (e :: todo)) done.length
      = editVarsAt language command (done ++ [e]) todo := by
  have hlen := appendCommand_length language command done
  have hget : (editVarsAt language command done (e :: todo)).heuristics[done.length]?
      = some e := by
    simp only [editVarsAt]
    rw [List.getElem?_append_right (by omega), hlen, Nat.sub_self]
    simp
  have hset : ∀ e' : heuristics,
      (appendCommand language command done ++ e :: todo).set done.length e'
        = appendCommand language command done ++ e' :: todo := by
    intro e'
    rw [List.set_append_right _ _ (by omega), hlen, Nat.sub_self]
    rfl
  have hsnoc : appendCommand language command (done ++ [e]) ++ todo
      = appendCommand language command done
        ++ (if e.Language = language then { e with Commands := e.Commands ++ [command] } else e)
          :: todo := by
    rw [appendCommand_append, List.append_assoc]
    rfl
  unfold editStep
  rw [hget]
  simp only [editVarsAt, hset, hsnoc, known_snoc, exists_snoc, List.map_append, List.map_cons,
    List.map_nil]
  by_cases hl : e.Language = language
  · simp [hl, commandLoop_eq]
  · simp [hl]

theorem editFold_at (language command : GoString) (done todo : List heuristics) :
    (List.range' done.length todo.length).foldl (editStep language command)
        (editVarsAt language command done todo)
      = editVarsAt language command (done ++ todo) [] := by
  induction todo generalizing done with
  | nil => simp
  | cons e es ih =>
    rw [List.length_cons, List.range'_succ, List.foldl_cons, editStep_at]
    have := ih (done ++ [e])
    rw [List.length_append, List.length_singleton] at this
    rw [this]
    simp

theorem editLoop_eq (language command : GoString) (kb : List heuristics) :
    editLoop language command kb =
      { heuristics := appendCommand language command kb
        languages := kb.map (·.Language)
        isKnownLanguage := decide (∃ entry ∈ kb, entry.Language = language)
        commandExists :=
          decide (∃ entry ∈ kb, entry.Language = language ∧ command ∈ entry.Commands) } := by
  unfold editLoop
  rw [List.range_eq_range']
  have := editFold_at language command [] kb
  simp only [editVarsAt, appendCommand, List.map_nil, List.nil_append, List.length_nil,
    List.append_nil] at this
  simpa [appendCommand] using this


/-! ## Runs of `addToHeuristic` -/

theorem appendCommand_languages (language command : GoString) (kb : List heuristics) :
    (appendCommand language command kb).map (·.Language) = kb.map (·.Language) := by
  unfold appendCommand
  rw [List.map_map]
  apply List.map_congr_left
  intro e _
  by_cases h : e.Language = language <;> simp [h]

theorem appendCommand_unknown (language command : GoString) (kb : List heuristics)
    (h : ∀ entry ∈ kb, entry.Language ≠ language) :
    appendCommand language command kb = kb := by
  unfold appendCommand
  conv_rhs => rw [← List.map_id kb]
  apply List.map_congr_left
  intro e he
  simp [h e he]

theorem uniqueLanguages_index (kb : List heuristics) (huniq : UniqueLanguages kb)
    (i j : Nat) (hi : i < kb.length) (hj : j < kb.length)
    (h : kb[i].Language = kb[j].Language) : i = j := by
  have hi' : i < (kb.map (·.Language)).length := by simpa using hi
  have hj' : j < (kb.map (·.Language)).length := by simpa using hj
  exact (@List.Nodup.getElem_inj_iff _ _ huniq i hi' j hj').mp (by simpa using h)

theorem appendCommand_unique (language command : GoString) (kb : List heuristics) (i : Nat)
    (hi : i < kb.length) (huniq : UniqueLanguages kb) (hlang : kb[i].Language = language) :
    appendCommand language command kb
      = kb.set i { Language := language, Commands := kb[i].Commands ++ [command] } := by
  apply List.ext_getElem
  · simp [appendCommand]
  · intro j h1 h2
    have hj : j < kb.length := by simpa [appendCommand] using h1
    by_cases hji : i = j
    · subst hji
      simp [appendCommand, hlang]
    · have hne : kb[j].Language ≠ language := by
        intro hjl
        apply hji
        exact uniqueLanguages_index kb huniq i j hi hj (by rw [hlang, hjl])
      simp [appendCommand, hne, List.getElem_set, hji]

/-- The run `addToHeuristic` makes when both arguments are present and the record
loads, as a function of what the loop finds. -/
theorem addToHeuristic_eq (args : List GoString) (w : World) (kb : List heuristics)
    (language command : GoString)
    (h3 : args[3]? = some language) (h4 : args[4]? = some command)
    (hfile : w.file = .content kb none) :
    addToHeuristic args w =
      if ¬ (∃ entry ∈ kb, entry.Language = language) then
        { stdout := language
            ++ utf8 " is not a known language, please select one of the existing languages: "
            ++ fmtSlice (kb.map (·.Language)) ++ utf8 "\n"
          status := .exited 1, world := w, wrote := none
          heuristics := some (appendCommand language command kb) }
      else if ∃ entry ∈ kb, entry.Language = language ∧ command ∈ entry.Commands then
        { stdout := command ++ utf8 " exists as a command already, skipping.\n"
          status := .returned, world := w, wrote := none
          heuristics := some (appendCommand language command kb) }
      else
        match w.writeFailure with
        | some (err, left) =>
          { stdout := utf8 "", status := .panicked err, world := { w with file := left }
            wrote := some (appendCommand language command kb)
            heuristics := some (appendCommand language command kb) }
        | none =>
          { stdout := utf8 "Appended " ++ command ++ utf8 " to " ++ language
              ++ utf8 "\x27s list of command heuristics\n"
            status := .returned
            world :=
              { w with
                file := .content (jsonRoundTrip (appendCommand language command kb)) none }
            wrote := some (appendCommand language command kb)
            heuristics := some (appendCommand language command kb) } := by
  have hlen : ¬ args.length < 4 := by
    intro h
    have : args[4]? = none := List.getElem?_eq_none (by omega)
    rw [this] at h4
    exact absurd h4 (by simp)
  unfold addToHeuristic
  rw [if_neg hlen, h3, h4]
  simp only [readHeuristics, hfile, editLoop_eq]
  by_cases hk : ∃ entry ∈ kb, entry.Language = language
  · by_cases hc : ∃ entry ∈ kb, entry.Language = language ∧ command ∈ entry.Commands
    · simp [hk, hc]
    · simp only [hk, hc, decide_True, decide_False, Bool.not_true, not_true_eq_false, if_false]
      simp
  · simp [hk]

theorem addToHeuristic_world_of_missing (args : List GoString) (w : World)
    (h : args[3]? = none ∨ args[4]? = none) : (addToHeuristic args w).world = w := by
  unfold addToHeuristic
  split_ifs
  · rfl
  · split
    · rename_i l c h3 h4
      rcases h with h | h
      · rw [h] at h3; exact absurd h3 (by simp)
      · rw [h] at h4; exact absurd h4 (by simp)
    · rfl

theorem appendCommand_uniquePatterns (language command : GoString) (kb : List heuristics)
    (hP : UniquePatterns kb)
    (hnew : ¬ ∃ entry ∈ kb, entry.Language = language ∧ command ∈ entry.Commands) :
    UniquePatterns (appendCommand language command kb) := by
  intro e' he'
  unfold appendCommand at he'
  obtain ⟨e, he, rfl⟩ := List.mem_map.mp he'
  by_cases hl : e.Language = language
  · have hc : command ∉ e.Commands := fun hc => hnew ⟨e, he, hl, hc⟩
    simp only [hl, if_true]
    rw [← List.concat_eq_append]
    exact List.Nodup.concat hc (hP e he)
  · simp only [hl, if_false]
    exact hP e he

/-! ## The JSON round trip on valid UTF-8 -/

theorem jsonCoerce_rawCommand :
    jsonCoerce rawCommand = storedCommand ∧ ¬ ValidUTF8 rawCommand ∧ ValidUTF8 storedCommand := by
  decide

theorem validKB_scenarioKB : ValidKB scenarioKB := by
  decide

theorem jsonRoundTrip_of_valid (kb : List heuristics) (hkb : ValidKB kb) :
    jsonRoundTrip kb = kb := by
  unfold jsonRoundTrip
  conv_rhs => rw [← List.map_id kb]
  apply List.map_congr_left
  intro e he
  obtain ⟨hl, hc⟩ := hkb e he
  have hmap : e.Commands.map jsonCoerce = e.Commands := by
    conv_rhs => rw [← List.map_id e.Commands]
    apply List.map_congr_left
    intro p hp
    exact hc p hp
  rw [hmap, show jsonCoerce e.Language = e.Language from hl]
  rfl

theorem validKB_appendCommand (language command : GoString) (kb : List heuristics)
    (hkb : ValidKB kb) (hvalid : ValidUTF8 command) :
    ValidKB (appendCommand language command kb) := by
  intro e' he'
  unfold appendCommand at he'
  obtain ⟨e, he, rfl⟩ := List.mem_map.mp he'
  obtain ⟨hl, hc⟩ := hkb e he
  by_cases h : e.Language = language
  · simp only [h, if_true]
    refine ⟨h ▸ hl, ?_⟩
    intro p hp
    rcases List.mem_append.mp hp with hp | hp
    · exact hc p hp
    · rw [List.mem_singleton.mp hp]
      exact hvalid
  · simp only [h, if_false]
    exact ⟨hl, hc⟩

/-! ## Claims about `addToHeuristic` -/

/-- Counterexample to C4 as stated: with the raw bytes `67 6f 20 ff` as pattern, new
for go in a knowledge base without repeated languages, the record afterwards does not
hold the loaded knowledge base with that pattern appended: `encoding/json` has stored
the bytes `67 6f 20 ef bf bd` instead. -/
theorem addToHeuristic_applied_raw :
    UniqueLanguages scenarioKB
    ∧ (∃ entry ∈ scenarioKB, entry.Language = utf8 "go" ∧ rawCommand ∉ entry.Commands)
    ∧ readHeuristics scenarioWorld = .ok scenarioKB
    ∧ (addToHeuristic (editArgs (utf8 "go") rawCommand) scenarioWorld).world.file
        = .content
            [{ Language := utf8 "go"
               Commands := [utf8 "go build", utf8 "go mod", storedCommand] },
             entryOf "python" ["pip install"]] none
    ∧ (addToHeuristic (editArgs (utf8 "go") rawCommand) scenarioWorld).world.file
        ≠ .content
            [{ Language := utf8 "go"
               Commands := [utf8 "go build", utf8 "go mod", rawCommand] },
             entryOf "python" ["pip install"]] none := by
  refine ⟨by decide, by decide, rfl, by decide, by decide⟩

/-- Claim C4, amended (applied outcome): when the loaded knowledge base is valid UTF-8
(as every decoded record is), no two entries share a language, entry `i` has the
given language and does not list the command, and the command is valid UTF-8, the
knowledge base handed to the store is the loaded one with the command appended at the
end of entry `i` and nothing else changed; when the write succeeds that is the
content of the record afterwards and the run returns normally. -/
theorem addToHeuristic_applied (args : List GoString) (w : World) (kb : List heuristics)
    (language command : GoString) (i : Nat) (hi : i < kb.length)
    (h3 : args[3]? = some language) (h4 : args[4]? = some command)
    (hfile : w.file = .content kb none) (hkb : ValidKB kb) (huniq : UniqueLanguages kb)
    (hlang : kb[i].Language = language) (hnew : command ∉ kb[i].Commands)
    (hvalid : ValidUTF8 command) :
    (addToHeuristic args w).wrote
        = some (kb.set i { Language := language, Commands := kb[i].Commands ++ [command] })
    ∧ (w.writeFailure = none →
        (addToHeuristic args w).world.file
            = .content (kb.set i { Language := language, Commands := kb[i].Commands ++ [command] })
                none
          ∧ (addToHeuristic args w).status = .returned) := by
  have hk : ∃ entry ∈ kb, entry.Language = language := ⟨kb[i], List.getElem_mem _, hlang⟩
  have hc : ¬ ∃ entry ∈ kb, entry.Language = language ∧ command ∈ entry.Commands := by
    rintro ⟨e, he, hl, hcmd⟩
    obtain ⟨j, hj, rfl⟩ := List.getElem_of_mem he
    have hij : i = j := uniqueLanguages_index kb huniq i j hi hj (by rw [hlang, hl])
    subst hij
    exact hnew hcmd
  rw [addToHeuristic_eq args w kb language command h3 h4 hfile,
    jsonRoundTrip_of_valid _ (validKB_appendCommand language command kb hkb hvalid),
    ← appendCommand_unique language command kb i hi huniq hlang]
  rw [if_neg (not_not.mpr hk), if_neg hc]
  constructor
  · rcases w.writeFailure with _ | ⟨err, left⟩ <;> rfl
  · intro hw
    rw [hw]
    exact ⟨rfl, rfl⟩

/-- Witness for C4 on scenario 5 of the specification: adding "go vet" to go persists
go with its patterns "go build", "go mod", "go vet". -/
theorem addToHeuristic_applied_witness :
    (addToHeuristic (editArgs (utf8 "go") (utf8 "go vet")) scenarioWorld).world.file
        = .content [entryOf "go" ["go build", "go mod", "go vet"],
            entryOf "python" ["pip install"]] none
    ∧ (addToHeuristic (editArgs (utf8 "go") (utf8 "go vet")) scenarioWorld).status
        = .returned :=
  (addToHeuristic_applied (editArgs (utf8 "go") (utf8 "go vet")) scenarioWorld scenarioKB
    (utf8 "go") (utf8 "go vet") 0
    (by decide) (by decide) (by decide) rfl (by decide) (by decide) (by decide) (by decide)
    (by decide)).2 rfl

/-- Counterexample to C5 as stated: adding "go mod", already listed under go, leaves
the record untouched, but the knowledge-base value held by the operation afterwards
is not the loaded one: line 220 has appended "go mod" once more. -/
theorem addToHeuristic_already_present_mutates :
    (∃ entry ∈ scenarioKB, entry.Language = utf8 "go" ∧ utf8 "go mod" ∈ entry.Commands)
    ∧ readHeuristics scenarioWorld = .ok scenarioKB
    ∧ (addToHeuristic (editArgs (utf8 "go") (utf8 "go mod")) scenarioWorld).heuristics
        = some [entryOf "go" ["go build", "go mod", "go mod"], entryOf "python" ["pip install"]]
    ∧ ¬ ((addToHeuristic (editArgs (utf8 "go") (utf8 "go mod")) scenarioWorld).heuristics
            = some scenarioKB
          ∧ (addToHeuristic (editArgs (utf8 "go") (utf8 "go mod")) scenarioWorld).wrote
            = none) := by
  refine ⟨by decide, rfl, by decide, by decide⟩

/-- Claim C5, amended (already-present outcome): when some entry with the given
language already lists the command, nothing is persisted: `os.WriteFile` is not
called, the world (hence the record and the knowledge base a later load yields) is
unchanged, the skip message is printed and the run returns normally. The local
working copy is the loaded knowledge base with the command appended to every entry of
that language. -/
theorem addToHeuristic_already_present (args : List GoString) (w : World)
    (kb : List heuristics) (language command : GoString) (entry : heuristics)
    (h3 : args[3]? = some language) (h4 : args[4]? = some command)
    (hfile : w.file = .content kb none) (hmem : entry ∈ kb)
    (hlang : entry.Language = language) (hcmd : command ∈ entry.Commands) :
    (addToHeuristic args w).wrote = none
    ∧ (addToHeuristic args w).world = w
    ∧ readHeuristics (addToHeuristic args w).world = .ok kb
    ∧ (addToHeuristic args w).status = .returned
    ∧ (addToHeuristic args w).stdout
        = command ++ utf8 " exists as a command already, skipping.\n"
    ∧ (addToHeuristic args w).heuristics = some (appendCommand language command kb) := by
  have hk : ∃ entry ∈ kb, entry.Language = language := ⟨entry, hmem, hlang⟩
  have hc : ∃ entry ∈ kb, entry.Language = language ∧ command ∈ entry.Commands :=
    ⟨entry, hmem, hlang, hcmd⟩
  rw [addToHeuristic_eq args w kb language command h3 h4 hfile,
    if_neg (not_not.mpr hk), if_pos hc]
  refine ⟨rfl, rfl, ?_, rfl, rfl, rfl⟩
  simp [readHeuristics, hfile]

/-- Witness for C5 on scenario 4 of the specification: adding "go mod" to go writes
nothing and leaves the record as it was. -/
theorem addToHeuristic_already_present_witness :
    (addToHeuristic (editArgs (utf8 "go") (utf8 "go mod")) scenarioWorld).wrote = none
    ∧ (addToHeuristic (editArgs (utf8 "go") (utf8 "go mod")) scenarioWorld).world
        = scenarioWorld :=
  have h := addToHeuristic_already_present (editArgs (utf8 "go") (utf8 "go mod"))
    scenarioWorld scenarioKB (utf8 "go") (utf8 "go mod") (entryOf "go" ["go build", "go mod"])
    (by decide) (by decide) rfl (by decide) (by decide) (by decide)
  ⟨h.1, h.2.1⟩

/-- Claim C6 (unknown language): when no entry has the given language, the run ends
with `os.Exit(1)`, the message lists exactly the languages of all entries in stored
order, the knowledge base in memory is the loaded one, `os.WriteFile` is not called
and the world is unchanged. -/
theorem addToHeuristic_unknown_language (args : List GoString) (w : World)
    (kb : List heuristics) (language command : GoString)
    (h3 : args[3]? = some language) (h4 : args[4]? = some command)
    (hfile : w.file = .content kb none)
    (hunknown : ∀ entry ∈ kb, entry.Language ≠ language) :
    (addToHeuristic args w).status = .exited 1
    ∧ (addToHeuristic args w).stdout
        = language
          ++ utf8 " is not a known language, please select one of the existing languages: "
          ++ fmtSlice (kb.map (·.Language)) ++ utf8 "\n"
    ∧ (addToHeuristic args w).heuristics = some kb
    ∧ (addToHeuristic args w).wrote = none
    ∧ (addToHeuristic args w).world = w := by
  have hk : ¬ ∃ entry ∈ kb, entry.Language = language := by
    rintro ⟨e, he, hl⟩
    exact hunknown e he hl
  rw [addToHeuristic_eq args w kb language command h3 h4 hfile, if_pos hk,
    appendCommand_unknown language command kb hunknown]
  exact ⟨rfl, rfl, rfl, rfl, rfl⟩

set_option maxRecDepth 8192 in
/-- Witness for C6 on scenario 3 of the specification: adding a pattern for rust
exits with status 1, reports go and python, and changes nothing. -/
theorem addToHeuristic_unknown_language_witness :
    (addToHeuristic (editArgs (utf8 "rust") (utf8 "cargo build")) scenarioWorld).status
        = .exited 1
    ∧ (addToHeuristic (editArgs (utf8 "rust") (utf8 "cargo build")) scenarioWorld).stdout
        = utf8 "rust is not a known language, please select one of the existing languages: [go python]\n"
    ∧ (addToHeuristic (editArgs (utf8 "rust") (utf8 "cargo build")) scenarioWorld).heuristics
        = some scenarioKB
    ∧ (addToHeuristic (editArgs (utf8 "rust") (utf8 "cargo build")) scenarioWorld).wrote
        = none
    ∧ (addToHeuristic (editArgs (utf8 "rust") (utf8 "cargo build")) scenarioWorld).world
        = scenarioWorld :=
  have h := addToHeuristic_unknown_language (editArgs (utf8 "rust") (utf8 "cargo build"))
    scenarioWorld scenarioKB (utf8 "rust") (utf8 "cargo build") (by decide) (by decide) rfl
    (by decide)
  ⟨h.1, h.2.1.trans (by decide), h.2.2.1, h.2.2.2.1, h.2.2.2.2⟩

/-- Counterexample to C7 as stated: with the raw bytes `67 6f 20 ff` as pattern, new
for go, the second identical run is not a skip: the record holds `67 6f 20 ef bf bd`,
which differs bytewise from the argument, so the run appends again, writes, and the
record after the second run differs from the record after the first. -/
theorem addToHeuristic_twice_raw :
    (∃ entry ∈ scenarioKB, entry.Language = utf8 "go")
    ∧ (∀ entry ∈ scenarioKB, entry.Language = utf8 "go" → rawCommand ∉ entry.Commands)
    ∧ (addToHeuristic (editArgs (utf8 "go") rawCommand) scenarioWorld).world.file
        = .content
            [{ Language := utf8 "go"
               Commands := [utf8 "go build", utf8 "go mod", storedCommand] },
             entryOf "python" ["pip install"]] none
    ∧ (addToHeuristic (editArgs (utf8 "go") rawCommand)
          (addToHeuristic (editArgs (utf8 "go") rawCommand) scenarioWorld).world).stdout
        = utf8 "Appended " ++ rawCommand ++ utf8 " to go\x27s list of command heuristics\n"
    ∧ (addToHeuristic (editArgs (utf8 "go") rawCommand)
          (addToHeuristic (editArgs (utf8 "go") rawCommand) scenarioWorld).world).world.file
        = .content
            [{ Language := utf8 "go"
               Commands := [utf8 "go build", utf8 "go mod", storedCommand, storedCommand] },
             entryOf "python" ["pip install"]] none
    ∧ (addToHeuristic (editArgs (utf8 "go") rawCommand)
          (addToHeuristic (editArgs (utf8 "go") rawCommand) scenarioWorld).world).world.file
        ≠ (addToHeuristic (editArgs (utf8 "go") rawCommand) scenarioWorld).world.file := by
  refine ⟨by decide, by decide, by decide, by decide, by decide, by decide⟩

/-- Claim C7, amended (idempotent edits): when the loaded knowledge base is valid
UTF-8 (as every decoded record is), some entry has the given language, no entry of
that language lists the command, the command is valid UTF-8 and the record can be
written, the first run reports the append and persists the edited knowledge base; the
second run, started in the world the first one left, reports the skip, writes
nothing, and leaves the record exactly as the first run persisted it. -/
theorem addToHeuristic_twice (args : List GoString) (w : World)
    (kb : List heuristics) (language command : GoString)
    (h3 : args[3]? = some language) (h4 : args[4]? = some command)
    (hfile : w.file = .content kb none) (hwrite : w.writeFailure = none)
    (hkb : ValidKB kb) (hvalid : ValidUTF8 command)
    (hknown : ∃ entry ∈ kb, entry.Language = language)
    (hnew : ∀ entry ∈ kb, entry.Language = language → command ∉ entry.Commands) :
    (addToHeuristic args w).status = .returned
    ∧ (addToHeuristic args w).stdout
        = utf8 "Appended " ++ command ++ utf8 " to " ++ language
          ++ utf8 "\x27s list of command heuristics\n"
    ∧ (addToHeuristic args w).wrote = some (appendCommand language command kb)
    ∧ (addToHeuristic args w).world.file = .content (appendCommand language command kb) none
    ∧ (addToHeuristic args (addToHeuristic args w).world).status = .returned
    ∧ (addToHeuristic args (addToHeuristic args w).world).stdout
        = command ++ utf8 " exists as a command already, skipping.\n"
    ∧ (addToHeuristic args (addToHeuristic args w).world).wrote = none
    ∧ (addToHeuristic args (addToHeuristic args w).world).world.file
        = (addToHeuristic args w).world.file := by
  have hc : ¬ ∃ entry ∈ kb, entry.Language = language ∧ command ∈ entry.Commands := by
    rintro ⟨e, he, hl, hcmd⟩
    exact hnew e he hl hcmd
  have h1 : addToHeuristic args w =
      { stdout := utf8 "Appended " ++ command ++ utf8 " to " ++ language
          ++ utf8 "\x27s list of command heuristics\n"
        status := .returned
        world := { w with file := .content (appendCommand language command kb) none }
        wrote := some (appendCommand language command kb)
        heuristics := some (appendCommand language command kb) } := by
    rw [addToHeuristic_eq args w kb language command h3 h4 hfile,
      jsonRoundTrip_of_valid _ (validKB_appendCommand language command kb hkb hvalid),
      if_neg (not_not.mpr hknown), if_neg hc, hwrite]
  obtain ⟨e, he, hl⟩ := hknown
  have he' : ({ e with Commands := e.Commands ++ [command] } : heuristics)
      ∈ appendCommand language command kb := by
    unfold appendCommand
    exact List.mem_map.mpr ⟨e, he, by simp [hl]⟩
  have h2 := addToHeuristic_eq args (addToHeuristic args w).world
    (appendCommand language command kb) language command h3 h4 (by rw [h1])
  have hk2 : ∃ entry ∈ appendCommand language command kb, entry.Language = language :=
    ⟨_, he', hl⟩
  have hc2 : ∃ entry ∈ appendCommand language command kb,
      entry.Language = language ∧ command ∈ entry.Commands := ⟨_, he', hl, by simp⟩
  rw [if_neg (not_not.mpr hk2), if_pos hc2] at h2
  rw [h2]
  rw [h1]
  exact ⟨rfl, rfl, rfl, rfl, rfl, rfl, rfl, rfl⟩

/-- Witness for C7: adding "go vet" to go twice appends it once; the second run skips
and the record still holds the knowledge base of the first run. -/
theorem addToHeuristic_twice_witness :
    (addToHeuristic (editArgs (utf8 "go") (utf8 "go vet")) scenarioWorld).world.file
        = .content [entryOf "go" ["go build", "go mod", "go vet"],
            entryOf "python" ["pip install"]] none
    ∧ (addToHeuristic (editArgs (utf8 "go") (utf8 "go vet"))
          (addToHeuristic (editArgs (utf8 "go") (utf8 "go vet")) scenarioWorld).world).wrote
        = none
    ∧ (addToHeuristic (editArgs (utf8 "go") (utf8 "go vet"))
          (addToHeuristic (editArgs (utf8 "go") (utf8 "go vet")) scenarioWorld).world).world.file
        = (addToHeuristic (editArgs (utf8 "go") (utf8 "go vet")) scenarioWorld).world.file :=
  have h := addToHeuristic_twice (editArgs (utf8 "go") (utf8 "go vet")) scenarioWorld
    scenarioKB (utf8 "go") (utf8 "go vet") (by decide) (by decide) rfl rfl (by decide)
    (by decide) (by decide) (by decide)
  ⟨h.2.2.2.1.trans (by decide), h.2.2.2.2.2.2.1, h.2.2.2.2.2.2.2⟩

/-- Counterexample to C8 as stated: the record holds go with the single pattern
`67 6f 20 ef bf bd`, so languages and patterns are unique; adding the raw bytes
`67 6f 20 ff` under go is new bytewise, is appended and stored as
`67 6f 20 ef bf bd`, and the persisted pattern list now repeats a pattern. -/
theorem addToHeuristic_breaks_uniqueness_raw :
    UniqueLanguages storedKB ∧ UniquePatterns storedKB
    ∧ (addToHeuristic (editArgs (utf8 "go") rawCommand)
          { file := .content storedKB none, writeFailure := none }).world.file
        = .content [{ Language := utf8 "go", Commands := [storedCommand, storedCommand] }] none
    ∧ ¬ UniquePatterns [{ Language := utf8 "go", Commands := [storedCommand, storedCommand] }] := by
  refine ⟨by decide, by decide, by decide, by decide⟩

/-- Claim C8, amended (uniqueness invariant preserved): when the record holds a
knowledge base that is valid UTF-8 (as every decoded record is), in which no two
entries share a language and no entry lists a pattern twice, the pattern argument, if
present, is valid UTF-8, and the record can be written, then after any run of
`addToHeuristic`, whatever the arguments and the outcome, the record still holds a
knowledge base with both properties. -/
theorem addToHeuristic_preserves_uniqueness (args : List GoString) (w : World)
    (kb : List heuristics) (hfile : w.file = .content kb none)
    (hwrite : w.writeFailure = none) (hkb : ValidKB kb)
    (hvalid : ∀ command, args[4]? = some command → ValidUTF8 command)
    (hL : UniqueLanguages kb) (hP : UniquePatterns kb) :
    ∃ kb', (addToHeuristic args w).world.file = .content kb' none
      ∧ UniqueLanguages kb' ∧ UniquePatterns kb' := by
  rcases h3 : args[3]? with _ | language
  · exact ⟨kb, by rw [addToHeuristic_world_of_missing args w (Or.inl h3), hfile], hL, hP⟩
  rcases h4 : args[4]? with _ | command
  · exact ⟨kb, by rw [addToHeuristic_world_of_missing args w (Or.inr h4), hfile], hL, hP⟩
  rw [addToHeuristic_eq args w kb language command h3 h4 hfile,
    jsonRoundTrip_of_valid _ (validKB_appendCommand language command kb hkb (hvalid _ h4))]
  by_cases hk : ∃ entry ∈ kb, entry.Language = language
  · by_cases hc : ∃ entry ∈ kb, entry.Language = language ∧ command ∈ entry.Commands
    · rw [if_neg (not_not.mpr hk), if_pos hc]
      exact ⟨kb, hfile, hL, hP⟩
    · rw [if_neg (not_not.mpr hk), if_neg hc, hwrite]
      refine ⟨appendCommand language command kb, rfl, ?_, ?_⟩
      · unfold UniqueLanguages
        rw [appendCommand_languages]
        exact hL
      · exact appendCommand_uniquePatterns language command kb hP hc
  · rw [if_pos hk]
    exact ⟨kb, hfile, hL, hP⟩

/-- Witness for C8 on the scenario knowledge base, adding "go vet" to go. -/
theorem addToHeuristic_preserves_uniqueness_witness :
    ∃ kb', (addToHeuristic (editArgs (utf8 "go") (utf8 "go vet")) scenarioWorld).world.file
        = .content kb' none ∧ UniqueLanguages kb' ∧ UniquePatterns kb' :=
  addToHeuristic_preserves_uniqueness (editArgs (utf8 "go") (utf8 "go vet")) scenarioWorld
    scenarioKB rfl rfl (by decide) (by decide) (by decide) (by decide)

/-! ## Claims about loading and dispatch -/

/-- Claim C9, evaluated on the code: on a record whose content does not decode (here
`json.Unmarshal` returns an error and leaves its target empty), `readHeuristics`
panics, but `findLanguages` returns normally, with the result of matching against the
empty knowledge base. -/
theorem findLanguages_ignores_decode_error :
    readHeuristics { file := .content [] (some "invalid character"), writeFailure := none }
        = .error "invalid character"
    ∧ findLanguages { file := .content [] (some "invalid character"), writeFailure := none }
        (utf8 "app:latest") { ImageHistory := fun _ => .ok [createdBy "RUN go build ./..."] }
        = .ok [] := by
  exact ⟨rfl, rfl⟩

/-- Claim C10, evaluated on the code: with the documented argument vectors of
`add-to-heuristic` and `list-heuristics`, `main` prints the usage text for
"subcommand-issue" and reaches neither `addToHeuristic` nor `listHeuristics`; in fact
no argument vector makes `main` reach either of them. -/
theorem main_rejects_documented_subcommands (program language command : GoString) :
    main [program, utf8 "get-pod-app-language", utf8 "add-to-heuristic", language, command]
        = .printUsageString "subcommand-issue"
    ∧ main [program, utf8 "get-pod-app-language", utf8 "list-heuristics"]
        = .printUsageString "subcommand-issue"
    ∧ (∀ osArgs args, main osArgs ≠ .addToHeuristic args)
    ∧ (∀ osArgs, main osArgs ≠ .listHeuristics) := by
  have h1 : utf8 "add-to-heuristic" ≠ utf8 "help" := by decide
  have h2 : utf8 "list-heuristics" ≠ utf8 "help" := by decide
  have h3 : utf8 "get-pod-app-language" ≠ utf8 "--help" := by decide
  have h4 : utf8 "get-pod-app-language" ≠ utf8 "-h" := by decide
  refine ⟨by simp [main, h1, h3, h4], by simp [main, h2, h3, h4], ?_, ?_⟩
  · intro osArgs args
    unfold main getPodLanguage
    split_ifs <;> simp_all
  · intro osArgs
    unfold main getPodLanguage
    split_ifs <;> simp_all

end GetPodAppLanguage
